import Mathlib

/-!
Verification of the rank-based neighborhood-preservation quality engine of the
`pdm_VAE_manifold` repository.

The embedding models:
* `Code/quantitative_metrics/local_quality.py` — the per-point local quality
  score (`ws`, `wt`, `local_quality`);
* the commented unsupervised-score aggregation of `score_optimization.py`
  (elementwise mean of the three metric curves and `sklearn.metrics.auc`
  trapezoidal reduction over `x = range(20)`);
* the hyperparameter-grid aggregation loop of `heatmap_optimization.py`.

Modelling conventions:
* numpy arrays are Lean lists (matrices are lists of rows); machine floats are
  exact rationals `ℚ`;
* `scipy.spatial.distance.squareform(pdist(data))` computes the Euclidean
  distance matrix.  The embedding stores the *squared* Euclidean distances
  (exact in `ℚ`); the real matrix is the image of this one under the strictly
  monotone map `Real.sqrt`, so symmetry, zero diagonal, nonnegativity and all
  row-wise orderings (hence all argsort-derived rank matrices) are identical
  for the two matrices;
* `ndarray.argsort(axis=1)` is modelled row-wise by a deterministic sorting
  permutation that orders indices by (value, index).  On rows whose values are
  pairwise distinct this is the unique sorting permutation, hence exactly
  numpy's behaviour; on ties numpy's default `kind='quicksort'` leaves the
  order unspecified (it is an unstable sort), and no theorem below depends on
  the tie order;
* Python exceptions are the explicit `PyError` error values of an `Except`
  result.  The constructors `shapeError` and `rangeError` are the error kinds
  named by the specification; the source never defines or raises them, and the
  embedding accordingly never produces them.
-/

/-- Error kinds.  `valueError` models the `ValueError` raised by numpy on a
failed elementwise broadcast (and by `sklearn.metrics.auc` on invalid x), and
`zeroDivisionError` models Python's `ZeroDivisionError`.  `shapeError` and
`rangeError` are the error kinds named by the specification; no code path of
the repository produces them. -/
inductive PyError : Type where
  | valueError : PyError
  | zeroDivisionError : PyError
  | shapeError : PyError
  | rangeError : PyError
deriving DecidableEq

/-- Ordering of row indices by (value at the index, index): index `i` comes
before `j` when the value at `i` is smaller, with ties resolved by index
order.  This is the key order used by the argsort model. -/
def keyRel {α : Type} [LinearOrder α] [Inhabited α] (l : List α) (i j : ℕ) : Prop :=
  l.getD i default < l.getD j default ∨ (l.getD i default = l.getD j default ∧ i ≤ j)

instance {α : Type} [LinearOrder α] [Inhabited α] (l : List α) :
    DecidableRel (keyRel l) := by
  intro i j
  unfold keyRel
  infer_instance

/-- Model of `numpy.ndarray.argsort` on one row: the list of row indices
sorted by ascending value, ties resolved by original index order (numpy's
default `kind='quicksort'` resolves ties in an unspecified deterministic
order; on tie-free rows every sorting permutation agrees with this one). -/
def argsort {α : Type} [LinearOrder α] [Inhabited α] (l : List α) : List ℕ :=
  List.insertionSort (keyRel l) (List.range l.length)

/-- Squared Euclidean distance between two rows, exact in `ℚ`.
`scipy.spatial.distance.pdist` computes the square root of this quantity. -/
def sqeuclid (x y : List ℚ) : ℚ :=
  ((List.zip x y).map (fun p => (p.1 - p.2) ^ 2)).sum

/-- Model of `distance.squareform(distance.pdist(data))`
(local_quality.py lines 82–83): the full pairwise (squared, see the module
doc) Euclidean distance matrix of a point cloud, rows kept in input order. -/
def squareform_pdist (data : List (List ℚ)) : List (List ℚ) :=
  data.map (fun xi => data.map (fun xj => sqeuclid xi xj))

/-- Model of `dist.argsort(axis=1).argsort(axis=1)`
(local_quality.py lines 87–88): the double row-wise argsort turning a
distance matrix into a rank matrix (entry (i,j) is the rank, 0 = closest,
of column j as seen from row i). -/
def np_double_argsort (dist : List (List ℚ)) : List (List ℕ) :=
  (dist.map argsort).map argsort

/-- Rank matrix of a point cloud: double argsort of its distance matrix
(`high_ranking` / `low_ranking` in the source). -/
def ranking_of (data : List (List ℚ)) : List (List ℕ) :=
  np_double_argsort (squareform_pdist data)

/-- Model of `ws` (local_quality.py lines 49–63): elementwise over the two
rank matrices, entry (i,j) is 0 when both the high-dim rank and the low-dim
rank exceed `ks` (`np.logical_and(rho_ij > ks, r_ij > ks)`), else 1.
`List.zipWith` models the numpy elementwise operation on equal-shape arrays;
`local_quality` guards the shapes before calling (a shape mismatch raises a
broadcast `ValueError` in numpy). -/
def ws (rho_ij r_ij : List (List ℕ)) (ks : ℕ) : List (List ℚ) :=
  List.zipWith
    (List.zipWith (fun a b => if ks < a ∧ ks < b then (0 : ℚ) else 1))
    rho_ij r_ij

/-- Model of `wt` (local_quality.py lines 32–47): elementwise over the two
rank matrices, entry (i,j) is 0 when the absolute rank difference exceeds `kt`
(`np.abs(rho_ij - r_ij) > kt`), else 1. -/
def wt (rho_ij r_ij : List (List ℕ)) (kt : ℕ) : List (List ℚ) :=
  List.zipWith
    (List.zipWith (fun (a b : ℕ) =>
      if kt < ((a : ℤ) - (b : ℤ)).natAbs then (0 : ℚ) else 1))
    rho_ij r_ij

/-- Model of `np.sum(M, axis=1)`: the list of row sums. -/
def np_sum_axis1 (M : List (List ℚ)) : List ℚ :=
  M.map List.sum

/-- Model of `np.sum(M, axis=0)` on a matrix whose rows share one length
(as is the case for the square matrices of `local_quality`): entry j is the
sum of column j. -/
def np_sum_axis0 (M : List (List ℚ)) : List ℚ :=
  (List.range (M.headD []).length).map (fun j => (M.map (fun row => row.getD j 0)).sum)

/-- Model of `local_quality` (local_quality.py lines 65–96).  Mirrors the
source line by line: build the two distance matrices, the two rank matrices,
`ws_mat` and `wt_mat`, then scale the sum of row sums and column sums of
`ws_mat * wt_mat` by `1/(2*ks*n)`.  The source performs no validation of its
own; the only failure paths are numpy's broadcast `ValueError` when the two
rank matrices have different shapes (raised inside `ws`, before the division)
and Python's `ZeroDivisionError` when `2*ks*n = 0`.  Inputs on which one
point cloud has fewer than 2 rows additionally hit scipy/numpy edge cases
(empty `pdist`, 1×1 broadcast) that the embedding does not model, so theorems
about mismatched shapes assume at least 2 rows on each side.  The parameter
order `kt ks` is the source's. -/
def local_quality (high_data low_data : List (List ℚ)) (kt ks : ℕ) :
    Except PyError (List ℚ) :=
  let n := high_data.length
  let high_distance := squareform_pdist high_data
  let low_distance := squareform_pdist low_data
  let high_ranking := np_double_argsort high_distance
  let low_ranking := np_double_argsort low_distance
  if high_ranking.length ≠ low_ranking.length then
    .error .valueError
  else if 2 * ks * n = 0 then
    .error .zeroDivisionError
  else
    let ws_mat := ws high_ranking low_ranking ks
    let wt_mat := wt high_ranking low_ranking kt
    let prod := List.zipWith (List.zipWith (· * ·)) ws_mat wt_mat
    .ok ((List.zipWith (· + ·) (np_sum_axis1 prod) (np_sum_axis0 prod)).map
      (fun s => 1 / (2 * (ks : ℚ) * (n : ℚ)) * s))

/-! ### Basic properties of the argsort model -/

theorem keyRel_total {α : Type} [LinearOrder α] [Inhabited α] (l : List α)
    (i j : ℕ) : keyRel l i j ∨ keyRel l j i := by
  unfold keyRel
  rcases lt_trichotomy (l.getD i default) (l.getD j default) with h | h | h
  · exact Or.inl (Or.inl h)
  · rcases le_total i j with hij | hij
    · exact Or.inl (Or.inr ⟨h, hij⟩)
    · exact Or.inr (Or.inr ⟨h.symm, hij⟩)
  · exact Or.inr (Or.inl h)

theorem keyRel_trans {α : Type} [LinearOrder α] [Inhabited α] (l : List α)
    {i j k : ℕ} (h₁ : keyRel l i j) (h₂ : keyRel l j k) : keyRel l i k := by
  unfold keyRel at *
  rcases h₁ with h₁ | ⟨e₁, le₁⟩
  · rcases h₂ with h₂ | ⟨e₂, _⟩
    · exact Or.inl (h₁.trans h₂)
    · exact Or.inl (e₂ ▸ h₁)
  · rcases h₂ with h₂ | ⟨e₂, le₂⟩
    · exact Or.inl (e₁ ▸ h₂)
    · exact Or.inr ⟨e₁.trans e₂, le₁.trans le₂⟩

theorem keyRel_antisymm {α : Type} [LinearOrder α] [Inhabited α] (l : List α)
    {i j : ℕ} (h₁ : keyRel l i j) (h₂ : keyRel l j i) : i = j := by
  rcases h₁ with h₁ | ⟨e₁, le₁⟩ <;> rcases h₂ with h₂ | ⟨e₂, le₂⟩
  · exact absurd (h₁.trans h₂) (lt_irrefl _)
  · exact absurd h₁ (e₂ ▸ lt_irrefl _)
  · exact absurd h₂ (e₁ ▸ lt_irrefl _)
  · exact le_antisymm le₁ le₂

theorem argsort_perm {α : Type} [LinearOrder α] [Inhabited α] (l : List α) :
    (argsort l).Perm (List.range l.length) :=
  List.perm_insertionSort _ _

theorem argsort_length {α : Type} [LinearOrder α] [Inhabited α] (l : List α) :
    (argsort l).length = l.length := by
  simpa using (argsort_perm l).length_eq

theorem argsort_sorted {α : Type} [LinearOrder α] [Inhabited α] (l : List α) :
    (argsort l).Sorted (keyRel l) := by
  haveI : IsTotal ℕ (keyRel l) := ⟨keyRel_total l⟩
  haveI : IsTrans ℕ (keyRel l) := ⟨fun _ _ _ => keyRel_trans l⟩
  exact List.sorted_insertionSort _ _

theorem argsort_nodup {α : Type} [LinearOrder α] [Inhabited α] (l : List α) :
    (argsort l).Nodup :=
  (argsort_perm l).nodup_iff.mpr (List.nodup_range _)

theorem argsort_mem {α : Type} [LinearOrder α] [Inhabited α] (l : List α)
    {i : ℕ} : i ∈ argsort l ↔ i < l.length := by
  rw [(argsort_perm l).mem_iff, List.mem_range]

/-- Argsorting a list whose entries are exactly `0..n-1` (for instance a first
argsort) yields the inverse permutation: position `j` holds the index at which
`j` occurs. -/
theorem argsort_eq_map_indexOf {n : ℕ} (r : List ℕ) (hr : r.Perm (List.range n)) :
    argsort r = (List.range n).map (fun j => r.indexOf j) := by
  have hlen : r.length = n := by simpa using hr.length_eq
  have hnodup : r.Nodup := hr.nodup_iff.mpr (List.nodup_range n)
  have hmem : ∀ {j : ℕ}, j ∈ r ↔ j < n := fun {j} => by rw [hr.mem_iff, List.mem_range]
  have hnd2 : ((List.range n).map (fun j => r.indexOf j)).Nodup := by
    refine (List.nodup_range n).map_on ?_
    intro x hx y hy hxy
    exact (List.indexOf_inj (hmem.mpr (List.mem_range.mp hx))
      (hmem.mpr (List.mem_range.mp hy))).mp hxy
  have hmem2 : ∀ a : ℕ, a ∈ (List.range n).map (fun j => r.indexOf j) ↔
      a ∈ List.range n := by
    intro a
    rw [List.mem_map, List.mem_range]
    constructor
    · rintro ⟨j, hj, rfl⟩
      rw [List.mem_range] at hj
      have hjr : j ∈ r := hmem.mpr hj
      have := List.indexOf_lt_length.mpr hjr
      omega
    · intro ha
      have ha' : a < r.length := by omega
      refine ⟨r.get ⟨a, ha'⟩, ?_, ?_⟩
      · rw [List.mem_range]
        exact hmem.mp (r.get_mem _ _)
      · rw [List.get_eq_getElem]
        exact List.indexOf_getElem hnodup a ha'
  have hperm2 : ((List.range n).map (fun j => r.indexOf j)).Perm (List.range n) :=
    (List.perm_ext_iff_of_nodup hnd2 (List.nodup_range n)).mpr hmem2
  have hsorted2 : ((List.range n).map (fun j => r.indexOf j)).Sorted (keyRel r) := by
    rw [List.Sorted, List.pairwise_map]
    refine (List.pairwise_lt_range n).imp_of_mem ?_
    intro a b ha hb hab
    rw [List.mem_range] at ha hb
    have har : a ∈ r := hmem.mpr ha
    have hbr : b ∈ r := hmem.mpr hb
    have hia := List.indexOf_lt_length.mpr har
    have hib := List.indexOf_lt_length.mpr hbr
    left
    rw [List.getD_eq_getElem _ _ hia, List.getD_eq_getElem _ _ hib,
      List.getElem_indexOf, List.getElem_indexOf]
    exact hab
  haveI : IsAntisymm ℕ (keyRel r) := ⟨fun _ _ => keyRel_antisymm r⟩
  refine List.eq_of_perm_of_sorted ?_ (argsort_sorted r) hsorted2
  exact ((hlen ▸ argsort_perm r)).trans hperm2.symm

/-- Entrywise form of `argsort_eq_map_indexOf`. -/
theorem argsort_getD_of_perm {n : ℕ} (r : List ℕ) (hr : r.Perm (List.range n))
    {i : ℕ} (hi : i < n) : (argsort r).getD i 0 = r.indexOf i := by
  rw [argsort_eq_map_indexOf r hr,
    List.getD_eq_getElem _ _ (by simpa using hi), List.getElem_map, List.getElem_range]

/-- When position `i` holds the unique strict minimum of a row, the argsort of
the row starts with `i` (independently of tie-breaking, the minimum being
strict). -/
theorem argsort_indexOf_unique_min {α : Type} [LinearOrder α] [Inhabited α]
    (l : List α) {i : ℕ} (hi : i < l.length)
    (hmin : ∀ j, j < l.length → j ≠ i → l.getD i default < l.getD j default) :
    (argsort l).indexOf i = 0 := by
  cases h : argsort l with
  | nil =>
    have hlen := argsort_length l
    rw [h] at hlen
    simp at hlen
    omega
  | cons b t =>
    have hb : b = i := by
      by_contra hne
      have hit : i ∈ t := by
        have hmem : i ∈ argsort l := (argsort_mem l).mpr hi
        rw [h, List.mem_cons] at hmem
        rcases hmem with hmem | hmem
        · exact absurd hmem.symm hne
        · exact hmem
      have hsor := argsort_sorted l
      rw [h] at hsor
      have hrel : keyRel l b i := List.rel_of_sorted_cons hsor i hit
      have hbl : b < l.length := by
        have : b ∈ argsort l := by
          rw [h]
          exact List.mem_cons_self b t
        exact (argsort_mem l).mp this
      have hlt : l.getD i default < l.getD b default := hmin b hbl hne
      rcases hrel with h1 | ⟨h2, _⟩
      · exact absurd (h1.trans hlt) (lt_irrefl _)
      · exact absurd hlt (h2 ▸ lt_irrefl _)
    rw [hb]
    exact List.indexOf_cons_self i t

/-- Self-rank: when position `i` holds the unique strict minimum of a row of a
distance matrix, the rank of `i` in that row (double argsort) is 0. -/
theorem double_argsort_self_rank (row : List ℚ) {i : ℕ} (hi : i < row.length)
    (hmin : ∀ j, j < row.length → j ≠ i → row.getD i default < row.getD j default) :
    (argsort (argsort row)).getD i 0 = 0 := by
  rw [argsort_getD_of_perm (argsort row) (argsort_perm row) (by omega : i < row.length)]
  exact argsort_indexOf_unique_min row hi hmin

/-! ### Properties of the distance matrix -/

theorem sqeuclid_nonneg (x y : List ℚ) : 0 ≤ sqeuclid x y := by
  unfold sqeuclid
  refine List.sum_nonneg ?_
  intro q hq
  rw [List.mem_map] at hq
  rcases hq with ⟨p, _, rfl⟩
  positivity

theorem sqeuclid_self (x : List ℚ) : sqeuclid x x = 0 := by
  unfold sqeuclid
  induction x with
  | nil => simp
  | cons a t ih =>
    rw [List.zip_cons_cons, List.map_cons, List.sum_cons]
    simpa using ih

theorem sqeuclid_comm (x y : List ℚ) : sqeuclid x y = sqeuclid y x := by
  unfold sqeuclid
  induction x generalizing y with
  | nil => cases y <;> simp
  | cons a t ih =>
    cases y with
    | nil => simp
    | cons b u =>
      rw [List.zip_cons_cons, List.zip_cons_cons, List.map_cons, List.map_cons,
        List.sum_cons, List.sum_cons, ih u]
      ring_nf

theorem sqeuclid_pos (x y : List ℚ) (hlen : x.length = y.length) (hne : x ≠ y) :
    0 < sqeuclid x y := by
  unfold sqeuclid
  induction x generalizing y with
  | nil =>
    cases y with
    | nil => exact absurd rfl hne
    | cons b u => simp at hlen
  | cons a t ih =>
    cases y with
    | nil => simp at hlen
    | cons b u =>
      rw [List.zip_cons_cons, List.map_cons, List.sum_cons]
      by_cases hab : a = b
      · subst hab
        have htu : t ≠ u := by
          intro h
          exact hne (by rw [h])
        have := ih u (by simpa using hlen) htu
        simpa using this
      · have h1 : 0 < (a - b) ^ 2 := by
          have : a - b ≠ 0 := sub_ne_zero_of_ne hab
          positivity
        have h2 : 0 ≤ ((t.zip u).map (fun p => (p.1 - p.2) ^ 2)).sum := by
          refine List.sum_nonneg ?_
          intro q hq
          rw [List.mem_map] at hq
          rcases hq with ⟨p, _, rfl⟩
          positivity
        linarith

theorem squareform_pdist_length (data : List (List ℚ)) :
    (squareform_pdist data).length = data.length := by
  simp [squareform_pdist]

theorem squareform_pdist_row (data : List (List ℚ)) {i : ℕ} (hi : i < data.length) :
    (squareform_pdist data).getD i [] = data.map (fun xj => sqeuclid (data.getD i []) xj) := by
  unfold squareform_pdist
  rw [List.getD_eq_getElem _ _ (by simpa using hi), List.getElem_map,
    List.getD_eq_getElem _ _ hi]

theorem squareform_pdist_entry (data : List (List ℚ)) {i j : ℕ}
    (hi : i < data.length) (hj : j < data.length) :
    ((squareform_pdist data).getD i []).getD j 0 =
      sqeuclid (data.getD i []) (data.getD j []) := by
  rw [squareform_pdist_row data hi,
    List.getD_eq_getElem _ _ (by simpa using hj), List.getElem_map,
    List.getD_eq_getElem _ _ hj]

theorem squareform_pdist_row_length (data : List (List ℚ)) {i : ℕ}
    (hi : i < data.length) :
    ((squareform_pdist data).getD i []).length = data.length := by
  rw [squareform_pdist_row data hi, List.length_map]

/-! ### Shape of the rank matrices -/

theorem np_double_argsort_length (dist : List (List ℚ)) :
    (np_double_argsort dist).length = dist.length := by
  simp [np_double_argsort]

theorem np_double_argsort_row (dist : List (List ℚ)) {i : ℕ} (hi : i < dist.length) :
    (np_double_argsort dist).getD i [] = argsort (argsort (dist.getD i [])) := by
  unfold np_double_argsort
  rw [List.getD_eq_getElem _ _ (by simpa using hi), List.getElem_map, List.getElem_map,
    List.getD_eq_getElem _ _ hi]

theorem np_double_argsort_row_length (dist : List (List ℚ)) {i : ℕ} (hi : i < dist.length) :
    ((np_double_argsort dist).getD i []).length = (dist.getD i []).length := by
  rw [np_double_argsort_row dist hi, argsort_length, argsort_length]

theorem ranking_of_length (data : List (List ℚ)) :
    (ranking_of data).length = data.length := by
  rw [ranking_of, np_double_argsort_length, squareform_pdist_length]

theorem ranking_of_row (data : List (List ℚ)) {i : ℕ} (hi : i < data.length) :
    (ranking_of data).getD i [] =
      argsort (argsort ((squareform_pdist data).getD i [])) := by
  rw [ranking_of, np_double_argsort_row _ (by rwa [squareform_pdist_length])]

theorem ranking_of_row_length (data : List (List ℚ)) {i : ℕ} (hi : i < data.length) :
    ((ranking_of data).getD i []).length = data.length := by
  rw [ranking_of, np_double_argsort_row_length _ (by rwa [squareform_pdist_length]),
    squareform_pdist_row_length data hi]

/-- Each row of the double argsort of any matrix is a permutation of
`0..len-1` where `len` is the length of the corresponding input row. -/
theorem np_double_argsort_row_perm (dist : List (List ℚ)) {i : ℕ} (hi : i < dist.length) :
    ((np_double_argsort dist).getD i []).Perm (List.range (dist.getD i []).length) := by
  rw [np_double_argsort_row dist hi]
  have h := argsort_perm (argsort (dist.getD i []))
  rwa [argsort_length] at h

/-! ### Specification-side pair predicates and counts (wording of the spec) -/

/-- A pair is scale-eligible unless both its high-dim rank and its low-dim
rank exceed `ks` (specification wording for the `ws` filter). -/
def scale_eligible (rho r ks : ℕ) : Prop := ¬(ks < rho ∧ ks < r)

instance (rho r ks : ℕ) : Decidable (scale_eligible rho r ks) := by
  unfold scale_eligible
  infer_instance

/-- A scale-eligible pair is a success when the absolute difference of its
high-dim and low-dim ranks is at most `kt` (specification wording for the
`wt` filter). -/
def rank_success (rho r kt : ℕ) : Prop := ((rho : ℤ) - (r : ℤ)).natAbs ≤ kt

instance (rho r kt : ℕ) : Decidable (rank_success rho r kt) := by
  unfold rank_success
  infer_instance

/-- A pair contributes to the score when it is scale-eligible and a
success. -/
def pair_counted (ks kt rho r : ℕ) : Bool :=
  decide (scale_eligible rho r ks ∧ rank_success rho r kt)

/-- Number of eligible successful pairs `(i, j)` seen along row `i` of the two
rank matrices (point `i` as the reference point). -/
def row_pair_count (H L : List (List ℕ)) (ks kt i : ℕ) : ℕ :=
  (((H.getD i []).zip (L.getD i [])).filter
    (fun p => pair_counted ks kt p.1 p.2)).length

/-- Number of eligible successful pairs `(j, i)` seen along column `i` of the
two rank matrices (point `i` as the neighbor). -/
def col_pair_count (H L : List (List ℕ)) (ks kt i : ℕ) : ℕ :=
  ((H.zip L).filter
    (fun rows => pair_counted ks kt (rows.1.getD i 0) (rows.2.getD i 0))).length

/-! ### Counting lemmas -/

theorem zipWith_mul_zipWith {α β : Type} (f g : α → β → ℚ) :
    ∀ (a : List α) (b : List β),
      List.zipWith (· * ·) (List.zipWith f a b) (List.zipWith g a b)
        = List.zipWith (fun x y => f x y * g x y) a b
  | [], _ => by simp
  | _ :: _, [] => by simp
  | x :: a, y :: b => by
    simp only [List.zipWith_cons_cons]
    rw [zipWith_mul_zipWith f g a b]

theorem zipWith2_mul_zipWith2 {α β : Type} (f g : α → β → ℚ) :
    ∀ (A : List (List α)) (B : List (List β)),
      List.zipWith (List.zipWith (· * ·))
          (List.zipWith (List.zipWith f) A B) (List.zipWith (List.zipWith g) A B)
        = List.zipWith (List.zipWith (fun x y => f x y * g x y)) A B
  | [], _ => by simp
  | _ :: _, [] => by simp
  | ra :: A, rb :: B => by
    simp only [List.zipWith_cons_cons]
    rw [zipWith_mul_zipWith f g ra rb, zipWith2_mul_zipWith2 f g A B]

/-- The product of a `ws` entry and a `wt` entry is the indicator of
"scale-eligible and success". -/
theorem ws_mul_wt_entry (ks kt a b : ℕ) :
    (if ks < a ∧ ks < b then (0 : ℚ) else 1) *
        (if kt < ((a : ℤ) - (b : ℤ)).natAbs then (0 : ℚ) else 1)
      = if pair_counted ks kt a b then (1 : ℚ) else 0 := by
  by_cases hP : ks < a ∧ ks < b <;>
    by_cases hQ : kt < ((a : ℤ) - (b : ℤ)).natAbs <;>
      simp [pair_counted, scale_eligible, rank_success, hP, hQ, Nat.not_lt]
  · rw [if_neg (by omega)]
  · rw [if_pos (by omega)]

theorem sum_zipWith_ind {α β : Type} (p : α → β → Bool) :
    ∀ (a : List α) (b : List β),
      (List.zipWith (fun x y => if p x y then (1 : ℚ) else 0) a b).sum
        = (((a.zip b).filter (fun xy => p xy.1 xy.2)).length : ℚ)
  | [], _ => by simp
  | _ :: _, [] => by simp
  | x :: a, y :: b => by
    rw [List.zipWith_cons_cons, List.sum_cons, List.zip_cons_cons, List.filter_cons]
    by_cases h : p x y
    · rw [if_pos h, if_pos h, List.length_cons, sum_zipWith_ind p a b]
      push_cast
      ring
    · rw [if_neg h, if_neg h, sum_zipWith_ind p a b]
      ring

theorem getD_zipWith {α β γ : Type} (f : α → β → γ) (a : List α) (b : List β)
    {j : ℕ} (hja : j < a.length) (hjb : j < b.length) (d : γ) (da : α) (db : β) :
    (List.zipWith f a b).getD j d = f (a.getD j da) (b.getD j db) := by
  rw [List.getD_eq_getElem _ _ (by rw [List.length_zipWith]; omega),
    List.getElem_zipWith, List.getD_eq_getElem _ _ hja, List.getD_eq_getElem _ _ hjb]

theorem map_getD_zipWith2 {α β : Type} (f : α → β → ℚ) (j : ℕ) (da : α) (db : β) :
    ∀ (A : List (List α)) (B : List (List β)),
      (∀ r ∈ A, j < r.length) → (∀ r ∈ B, j < r.length) →
      (List.zipWith (List.zipWith f) A B).map (fun row => row.getD j 0)
        = List.zipWith (fun ra rb => f (ra.getD j da) (rb.getD j db)) A B
  | [], _ => fun _ _ => by simp
  | _ :: _, [] => fun _ _ => by simp
  | ra :: A, rb :: B => fun hA hB => by
    rw [List.zipWith_cons_cons, List.map_cons, List.zipWith_cons_cons,
      map_getD_zipWith2 f j da db A B (fun r hr => hA r (List.mem_cons_of_mem _ hr))
        (fun r hr => hB r (List.mem_cons_of_mem _ hr))]
    congr 1
    exact getD_zipWith f ra rb (hA ra (List.mem_cons_self _ _))
      (hB rb (List.mem_cons_self _ _)) 0 da db

theorem headD_eq_getD_zero {α : Type} (l : List α) (d : α) : l.headD d = l.getD 0 d := by
  cases l <;> rfl

/-! ### Unfolding `local_quality` -/

theorem ranking_of_mem_row_length (data : List (List ℚ)) :
    ∀ r ∈ ranking_of data, r.length = data.length := by
  intro r hr
  rw [List.mem_iff_getElem] at hr
  rcases hr with ⟨i, hi, rfl⟩
  have hi' : i < data.length := by rwa [ranking_of_length] at hi
  rw [← List.getD_eq_getElem _ [] hi]
  exact ranking_of_row_length data hi'

theorem local_quality_unfold (high_data low_data : List (List ℚ)) (kt ks : ℕ) :
    local_quality high_data low_data kt ks =
      (if (ranking_of high_data).length ≠ (ranking_of low_data).length then
        Except.error PyError.valueError
      else if 2 * ks * high_data.length = 0 then
        Except.error PyError.zeroDivisionError
      else
        Except.ok ((List.zipWith (· + ·)
          (np_sum_axis1 (List.zipWith (List.zipWith (· * ·))
            (ws (ranking_of high_data) (ranking_of low_data) ks)
            (wt (ranking_of high_data) (ranking_of low_data) kt)))
          (np_sum_axis0 (List.zipWith (List.zipWith (· * ·))
            (ws (ranking_of high_data) (ranking_of low_data) ks)
            (wt (ranking_of high_data) (ranking_of low_data) kt)))).map
          (fun s => 1 / (2 * (ks : ℚ) * (high_data.length : ℚ)) * s))) := rfl

/-- The elementwise product `ws_mat * wt_mat` as a single indicator matrix of
"scale-eligible and success". -/
def lq_w_matrix (H L : List (List ℕ)) (ks kt : ℕ) : List (List ℚ) :=
  List.zipWith (List.zipWith (fun a b : ℕ =>
    if pair_counted ks kt a b then (1 : ℚ) else 0)) H L

theorem ws_mul_wt (H L : List (List ℕ)) (ks kt : ℕ) :
    List.zipWith (List.zipWith (· * ·)) (ws H L ks) (wt H L kt)
      = lq_w_matrix H L ks kt := by
  rw [ws, wt, zipWith2_mul_zipWith2, lq_w_matrix]
  have hfun : (fun (a b : ℕ) =>
      (if ks < a ∧ ks < b then (0 : ℚ) else 1) *
        (if kt < ((a : ℤ) - (b : ℤ)).natAbs then (0 : ℚ) else 1))
      = (fun (a b : ℕ) => if pair_counted ks kt a b then (1 : ℚ) else 0) := by
    funext a b
    exact ws_mul_wt_entry ks kt a b
  rw [hfun]

theorem lq_w_matrix_length (H L : List (List ℕ)) (ks kt : ℕ) :
    (lq_w_matrix H L ks kt).length = min H.length L.length := by
  rw [lq_w_matrix, List.length_zipWith]

theorem sum_axis1_w (H L : List (List ℕ)) (ks kt i : ℕ)
    (hiH : i < H.length) (hiL : i < L.length) :
    (np_sum_axis1 (lq_w_matrix H L ks kt)).getD i 0
      = (row_pair_count H L ks kt i : ℚ) := by
  have hiW : i < (lq_w_matrix H L ks kt).length := by
    rw [lq_w_matrix_length]
    omega
  rw [np_sum_axis1, List.getD_eq_getElem _ _ (by simpa using hiW), List.getElem_map]
  have hrow : (lq_w_matrix H L ks kt)[i] = List.zipWith (fun a b : ℕ =>
      if pair_counted ks kt a b then (1 : ℚ) else 0) (H.getD i []) (L.getD i []) := by
    rw [← List.getD_eq_getElem _ [] hiW]
    rw [lq_w_matrix]
    exact getD_zipWith _ H L hiH hiL [] [] []
  rw [hrow, sum_zipWith_ind (fun a b : ℕ => pair_counted ks kt a b)
    (H.getD i []) (L.getD i []), row_pair_count]

theorem sum_axis0_w (H L : List (List ℕ)) (ks kt : ℕ) {n : ℕ}
    (hH : H.length = n) (hL : L.length = n)
    (hHr : ∀ r ∈ H, r.length = n) (hLr : ∀ r ∈ L, r.length = n)
    (hn : 1 ≤ n) {i : ℕ} (hi : i < n) :
    (np_sum_axis0 (lq_w_matrix H L ks kt)).getD i 0
      = (col_pair_count H L ks kt i : ℚ) := by
  have hW0 : ((lq_w_matrix H L ks kt).headD []).length = n := by
    rw [headD_eq_getD_zero, lq_w_matrix,
      getD_zipWith _ H L (by omega) (by omega) [] [] [], List.length_zipWith]
    have h1 : (H.getD 0 []).length = n := by
      rw [List.getD_eq_getElem _ _ (by omega)]
      exact hHr _ (List.getElem_mem _)
    have h2 : (L.getD 0 []).length = n := by
      rw [List.getD_eq_getElem _ _ (by omega)]
      exact hLr _ (List.getElem_mem _)
    omega
  have hcols : (lq_w_matrix H L ks kt).map (fun row => row.getD i 0)
      = List.zipWith (fun ra rb => (fun a b : ℕ =>
          if pair_counted ks kt a b then (1 : ℚ) else 0) (ra.getD i 0) (rb.getD i 0)) H L := by
    rw [lq_w_matrix]
    exact map_getD_zipWith2 _ i 0 0 H L
      (fun r hr => by rw [hHr r hr]; omega)
      (fun r hr => by rw [hLr r hr]; omega)
  have hib : i < (np_sum_axis0 (lq_w_matrix H L ks kt)).length := by
    rw [np_sum_axis0, List.length_map, List.length_range, hW0]
    omega
  rw [np_sum_axis0, List.getD_eq_getElem _ _ (by simpa [np_sum_axis0] using hib),
    List.getElem_map, List.getElem_range, hcols]
  exact sum_zipWith_ind
    (fun ra rb : List ℕ => pair_counted ks kt (ra.getD i 0) (rb.getD i 0)) H L

theorem sum_axis0_w_length (H L : List (List ℕ)) (ks kt : ℕ) {n : ℕ}
    (hH : H.length = n) (hL : L.length = n)
    (hHr : ∀ r ∈ H, r.length = n) (hLr : ∀ r ∈ L, r.length = n)
    (hn : 1 ≤ n) :
    (np_sum_axis0 (lq_w_matrix H L ks kt)).length = n := by
  rw [np_sum_axis0, List.length_map, List.length_range, headD_eq_getD_zero,
    lq_w_matrix, getD_zipWith _ H L (by omega) (by omega) [] [] [],
    List.length_zipWith]
  have h1 : (H.getD 0 []).length = n := by
    rw [List.getD_eq_getElem _ _ (by omega)]
    exact hHr _ (List.getElem_mem _)
  have h2 : (L.getD 0 []).length = n := by
    rw [List.getD_eq_getElem _ _ (by omega)]
    exact hLr _ (List.getElem_mem _)
  omega

/-- Shared description of the success path of `local_quality`: a length-N
vector whose entry i is `1/(2*ks*N)` times the row-i plus column-i count of
scale-eligible successful pairs. -/
theorem local_quality_ok_spec (high_data low_data : List (List ℚ))
    (kt ks : ℕ) (hlen : low_data.length = high_data.length)
    (hks : 1 ≤ ks) (hn : 1 ≤ high_data.length) :
    ∃ v, local_quality high_data low_data kt ks = Except.ok v ∧
      v.length = high_data.length ∧
      ∀ i, i < high_data.length → v.getD i 0 =
        1 / (2 * (ks : ℚ) * (high_data.length : ℚ)) *
          ((row_pair_count (ranking_of high_data) (ranking_of low_data) ks kt i : ℚ) +
           (col_pair_count (ranking_of high_data) (ranking_of low_data) ks kt i : ℚ)) := by
  have hHlen : (ranking_of high_data).length = high_data.length :=
    ranking_of_length high_data
  have hLlen : (ranking_of low_data).length = high_data.length := by
    rw [ranking_of_length, hlen]
  have hHrow : ∀ r ∈ ranking_of high_data, r.length = high_data.length :=
    ranking_of_mem_row_length high_data
  have hLrow : ∀ r ∈ ranking_of low_data, r.length = high_data.length := by
    intro r hr
    rw [ranking_of_mem_row_length low_data r hr, hlen]
  have hlq : local_quality high_data low_data kt ks = Except.ok
      ((List.zipWith (· + ·)
        (np_sum_axis1 (lq_w_matrix (ranking_of high_data) (ranking_of low_data) ks kt))
        (np_sum_axis0 (lq_w_matrix (ranking_of high_data) (ranking_of low_data) ks kt))).map
        (fun s => 1 / (2 * (ks : ℚ) * (high_data.length : ℚ)) * s)) := by
    rw [local_quality_unfold, if_neg (not_not.mpr (by rw [hHlen, hLlen])),
      if_neg (Nat.mul_ne_zero (Nat.mul_ne_zero (by omega) (by omega)) (by omega)),
      ws_mul_wt]
  have hWlen : (lq_w_matrix (ranking_of high_data) (ranking_of low_data) ks kt).length
      = high_data.length := by
    rw [lq_w_matrix_length, hHlen, hLlen, min_self]
  have hs1len : (np_sum_axis1
      (lq_w_matrix (ranking_of high_data) (ranking_of low_data) ks kt)).length
      = high_data.length := by
    rw [np_sum_axis1, List.length_map, hWlen]
  have hs0len : (np_sum_axis0
      (lq_w_matrix (ranking_of high_data) (ranking_of low_data) ks kt)).length
      = high_data.length :=
    sum_axis0_w_length _ _ ks kt hHlen hLlen hHrow hLrow hn
  refine ⟨_, hlq, ?_, ?_⟩
  · rw [List.length_map, List.length_zipWith, hs1len, hs0len, min_self]
  · intro i hi
    have hvi : i < ((List.zipWith (· + ·)
        (np_sum_axis1 (lq_w_matrix (ranking_of high_data) (ranking_of low_data) ks kt))
        (np_sum_axis0 (lq_w_matrix (ranking_of high_data) (ranking_of low_data) ks kt))).map
        (fun s => 1 / (2 * (ks : ℚ) * (high_data.length : ℚ)) * s)).length := by
      rw [List.length_map, List.length_zipWith, hs1len, hs0len, min_self]
      exact hi
    rw [List.getD_eq_getElem _ _ hvi, List.getElem_map, List.getElem_zipWith]
    rw [← List.getD_eq_getElem
        (np_sum_axis1 (lq_w_matrix (ranking_of high_data) (ranking_of low_data) ks kt)) 0
        (by rw [hs1len]; exact hi),
      ← List.getD_eq_getElem
        (np_sum_axis0 (lq_w_matrix (ranking_of high_data) (ranking_of low_data) ks kt)) 0
        (by rw [hs0len]; exact hi)]
    rw [sum_axis1_w _ _ ks kt i (by rw [hHlen]; exact hi) (by rw [hLlen]; exact hi),
      sum_axis0_w _ _ ks kt hHlen hLlen hHrow hLrow hn hi]

/-- C1: for every pair of row-aligned point clouds and positive parameters
`ks` and `kt`, `local_quality` returns a length-N vector in which the score of
point i equals `1/(2*ks*N)` times the number of scale-eligible successful
pairs, counted once over row i and once over column i of the two rank
matrices (a pair is eligible unless both ranks exceed `ks`, and an eligible
pair is a success iff the absolute rank difference is at most `kt`). -/
theorem local_quality_per_point_score (high_data low_data : List (List ℚ))
    (kt ks : ℕ) (hlen : low_data.length = high_data.length)
    (hks : 1 ≤ ks) (hkt : 1 ≤ kt) (hn : 1 ≤ high_data.length) :
    ∃ v, local_quality high_data low_data kt ks = Except.ok v ∧
      v.length = high_data.length ∧
      ∀ i, i < high_data.length → v.getD i 0 =
        1 / (2 * (ks : ℚ) * (high_data.length : ℚ)) *
          ((row_pair_count (ranking_of high_data) (ranking_of low_data) ks kt i : ℚ) +
           (col_pair_count (ranking_of high_data) (ranking_of low_data) ks kt i : ℚ)) :=
  local_quality_ok_spec high_data low_data kt ks hlen hks hn

/-- Witness for C1: a concrete 2-point cloud embedded into itself. -/
theorem local_quality_per_point_score_witness :
    ∃ v, local_quality [[(0 : ℚ)], [1]] [[(0 : ℚ)], [1]] 1 1 = Except.ok v ∧
      v.length = [[(0 : ℚ)], [1]].length ∧
      ∀ i, i < [[(0 : ℚ)], [1]].length → v.getD i 0 =
        1 / (2 * ((1 : ℕ) : ℚ) * (([[(0 : ℚ)], [1]].length : ℕ) : ℚ)) *
          ((row_pair_count (ranking_of [[(0 : ℚ)], [1]]) (ranking_of [[(0 : ℚ)], [1]]) 1 1 i : ℚ) +
           (col_pair_count (ranking_of [[(0 : ℚ)], [1]]) (ranking_of [[(0 : ℚ)], [1]]) 1 1 i : ℚ)) :=
  local_quality_per_point_score [[(0 : ℚ)], [1]] [[(0 : ℚ)], [1]] 1 1 rfl
    (by decide) (by decide) (by decide)

/-! ### Error behaviour of `local_quality` (C3, C7) -/

/-- Counterexample to C3: with N = 3 samples and `ks = 3 ≥ N` (out of the
range the specification claims is rejected), `local_quality` raises nothing
and happily returns a score vector. -/
theorem local_quality_accepts_out_of_range_ks :
    local_quality [[(0 : ℚ)], [1], [2]] [[(0 : ℚ)], [1], [2]] 1 3
        = Except.ok [1/3, 1/3, 1/3] ∧
      local_quality [[(0 : ℚ)], [1], [2]] [[(0 : ℚ)], [1], [2]] 1 3
        ≠ Except.error PyError.rangeError := by
  have hd : squareform_pdist [[(0 : ℚ)], [1], [2]] = [[0, 1, 4], [1, 0, 1], [4, 1, 0]] := by
    norm_num [squareform_pdist, sqeuclid]
  have hr : ranking_of [[(0 : ℚ)], [1], [2]] = [[0, 1, 2], [1, 0, 2], [2, 1, 0]] := by
    rw [ranking_of, hd]
    norm_num [np_double_argsort, argsort, keyRel]
  have h : local_quality [[(0 : ℚ)], [1], [2]] [[(0 : ℚ)], [1], [2]] 1 3
      = Except.ok [1/3, 1/3, 1/3] := by
    rw [local_quality_unfold, hr]
    norm_num [ws, wt, pair_counted, scale_eligible, rank_success,
      np_sum_axis1, np_sum_axis0, List.range_succ, List.replicate_succ]
  refine ⟨h, ?_⟩
  rw [h]
  simp

/-- Amended C3: `local_quality` performs no range validation of `ks` or `kt`.
`ks = 0` fails with a `ZeroDivisionError` coming from the `1/(2*ks*n)`
factor (not a `RangeError`), and every `ks ≥ 1` — including values ≥ N — is
accepted silently and produces a score vector. -/
theorem local_quality_no_range_validation (high_data low_data : List (List ℚ))
    (kt ks : ℕ) (hlen : low_data.length = high_data.length) :
    (ks = 0 →
      local_quality high_data low_data kt ks = Except.error PyError.zeroDivisionError) ∧
    (1 ≤ ks → 1 ≤ high_data.length →
      ∃ v, local_quality high_data low_data kt ks = Except.ok v) := by
  have hne : ¬ (ranking_of high_data).length ≠ (ranking_of low_data).length := by
    rw [ranking_of_length, ranking_of_length, hlen]
    exact not_ne_iff.mpr rfl
  constructor
  · intro h0
    rw [local_quality_unfold, if_neg hne, if_pos (by rw [h0]; simp)]
  · intro hks hn
    rw [local_quality_unfold, if_neg hne,
      if_neg (Nat.mul_ne_zero (Nat.mul_ne_zero two_ne_zero (by omega)) (by omega))]
    exact ⟨_, rfl⟩

/-- Witness for the amended C3, at `ks = 0` and at `ks = 1`. -/
theorem local_quality_no_range_validation_witness :
    ((0 = 0 →
        local_quality [[(0 : ℚ)], [1]] [[(0 : ℚ)], [1]] 1 0
          = Except.error PyError.zeroDivisionError) ∧
      (1 ≤ 0 → 1 ≤ 2 → ∃ v, local_quality [[(0 : ℚ)], [1]] [[(0 : ℚ)], [1]] 1 0
          = Except.ok v)) ∧
    ((1 = 0 →
        local_quality [[(0 : ℚ)], [1]] [[(0 : ℚ)], [1]] 1 1
          = Except.error PyError.zeroDivisionError) ∧
      (1 ≤ 1 → 1 ≤ 2 → ∃ v, local_quality [[(0 : ℚ)], [1]] [[(0 : ℚ)], [1]] 1 1
          = Except.ok v)) :=
  ⟨local_quality_no_range_validation [[(0 : ℚ)], [1]] [[(0 : ℚ)], [1]] 1 0 rfl,
   local_quality_no_range_validation [[(0 : ℚ)], [1]] [[(0 : ℚ)], [1]] 1 1 rfl⟩

/-- Counterexample to C7: on point clouds with 2 and 3 rows, `local_quality`
fails with the numpy broadcast `ValueError`, not with a `ShapeError`. -/
theorem local_quality_mismatch_not_shape_error :
    local_quality [[(0 : ℚ)], [1]] [[(0 : ℚ)], [1], [2]] 1 1
        = Except.error PyError.valueError ∧
      local_quality [[(0 : ℚ)], [1]] [[(0 : ℚ)], [1], [2]] 1 1
        ≠ Except.error PyError.shapeError := by
  have h : local_quality [[(0 : ℚ)], [1]] [[(0 : ℚ)], [1], [2]] 1 1
      = Except.error PyError.valueError := by
    rw [local_quality_unfold,
      if_pos (by rw [ranking_of_length, ranking_of_length]; decide)]
  refine ⟨h, ?_⟩
  rw [h]
  simp

/-- Amended C7: the code never raises a `ShapeError` (the name exists only in
the specification); a mismatched number of rows between the two point clouds
(each with at least 2 rows) is detected only at the elementwise `ws`/`wt`
step, where numpy raises a broadcast `ValueError`, and a too-small input is
not checked at all. -/
theorem local_quality_mismatch_value_error (high_data low_data : List (List ℚ))
    (kt ks : ℕ) (h2h : 2 ≤ high_data.length) (h2l : 2 ≤ low_data.length)
    (hne : high_data.length ≠ low_data.length) :
    local_quality high_data low_data kt ks = Except.error PyError.valueError := by
  rw [local_quality_unfold,
    if_pos (by rw [ranking_of_length, ranking_of_length]; exact hne)]

/-- Witness for the amended C7. -/
theorem local_quality_mismatch_value_error_witness :
    2 ≤ [[(0 : ℚ)], [1]].length ∧ 2 ≤ [[(0 : ℚ)], [1], [2], [3]].length ∧
      local_quality [[(0 : ℚ)], [1]] [[(0 : ℚ)], [1], [2], [3]] 1 1
        = Except.error PyError.valueError :=
  ⟨by decide, by decide,
    local_quality_mismatch_value_error [[(0 : ℚ)], [1]] [[(0 : ℚ)], [1], [2], [3]] 1 1
      (by decide) (by decide) (by decide)⟩

/-- C8: `local_quality` is a pure function of its inputs — two runs on the
same `(high, low, kt, ks)` give identical results (the embedding is
deterministic because the source contains no randomness or hidden state). -/
theorem local_quality_deterministic (high_data low_data : List (List ℚ)) (kt ks : ℕ)
    (r₁ r₂ : Except PyError (List ℚ))
    (h₁ : r₁ = local_quality high_data low_data kt ks)
    (h₂ : r₂ = local_quality high_data low_data kt ks) : r₁ = r₂ :=
  h₁.trans h₂.symm

/-- Witness for C8. -/
theorem local_quality_deterministic_witness :
    local_quality [[(0 : ℚ)], [1]] [[(0 : ℚ)], [1]] 1 1
      = local_quality [[(0 : ℚ)], [1]] [[(0 : ℚ)], [1]] 1 1 :=
  local_quality_deterministic [[(0 : ℚ)], [1]] [[(0 : ℚ)], [1]] 1 1 _ _ rfl rfl

/-- C5: every row of the rank matrix obtained by double argsort of an N×N
distance matrix contains every integer of `[0, N-1]` exactly once. -/
theorem np_double_argsort_rows_perm (D : List (List ℚ))
    (hsq : ∀ row ∈ D, row.length = D.length) :
    ∀ i, i < D.length →
      ((np_double_argsort D).getD i []).Perm (List.range D.length) := by
  intro i hi
  have h := np_double_argsort_row_perm D hi
  have hlen : (D.getD i []).length = D.length := by
    rw [List.getD_eq_getElem _ _ hi]
    exact hsq _ (List.getElem_mem _)
  rwa [hlen] at h

/-- Witness for C5 on a concrete 2×2 distance matrix. -/
theorem np_double_argsort_rows_perm_witness :
    (∀ row ∈ [[(0 : ℚ), 1], [1, 0]], row.length = [[(0 : ℚ), 1], [1, 0]].length) ∧
      ∀ i, i < [[(0 : ℚ), 1], [1, 0]].length →
        ((np_double_argsort [[(0 : ℚ), 1], [1, 0]]).getD i []).Perm
          (List.range [[(0 : ℚ), 1], [1, 0]].length) :=
  ⟨by decide, np_double_argsort_rows_perm [[(0 : ℚ), 1], [1, 0]] (by decide)⟩

/-- C6: the pairwise distance matrix built inside `local_quality` is N×N,
symmetric, zero on the diagonal and nonnegative.  (Stated for the squared
distance matrix of the embedding; the Euclidean matrix is its image under the
strictly monotone `Real.sqrt`, which preserves shape, symmetry, the zero
diagonal and nonnegativity.) -/
theorem squareform_pdist_sym_nonneg_zero_diag (data : List (List ℚ)) (m : ℕ)
    (hm : ∀ row ∈ data, row.length = m) (hN : 2 ≤ data.length) :
    (squareform_pdist data).length = data.length ∧
    (∀ row ∈ squareform_pdist data, row.length = data.length) ∧
    (∀ i j, i < data.length → j < data.length →
      ((squareform_pdist data).getD i []).getD j 0 =
          ((squareform_pdist data).getD j []).getD i 0 ∧
        0 ≤ ((squareform_pdist data).getD i []).getD j 0) ∧
    (∀ i, i < data.length → ((squareform_pdist data).getD i []).getD i 0 = 0) := by
  refine ⟨squareform_pdist_length data, ?_, ?_, ?_⟩
  · intro row hrow
    rw [List.mem_iff_getElem] at hrow
    rcases hrow with ⟨i, hi, rfl⟩
    have hi' : i < data.length := by rwa [squareform_pdist_length] at hi
    rw [← List.getD_eq_getElem _ [] hi]
    exact squareform_pdist_row_length data hi'
  · intro i j hi hj
    rw [squareform_pdist_entry data hi hj, squareform_pdist_entry data hj hi]
    exact ⟨sqeuclid_comm _ _, sqeuclid_nonneg _ _⟩
  · intro i hi
    rw [squareform_pdist_entry data hi hi]
    exact sqeuclid_self _

/-- Witness for C6 on a concrete 2×1 point cloud. -/
theorem squareform_pdist_sym_nonneg_zero_diag_witness :
    (∀ row ∈ [[(0 : ℚ)], [1]], row.length = 1) ∧ 2 ≤ [[(0 : ℚ)], [1]].length ∧
    ((squareform_pdist [[(0 : ℚ)], [1]]).length = [[(0 : ℚ)], [1]].length ∧
      (∀ row ∈ squareform_pdist [[(0 : ℚ)], [1]], row.length = [[(0 : ℚ)], [1]].length) ∧
      (∀ i j, i < [[(0 : ℚ)], [1]].length → j < [[(0 : ℚ)], [1]].length →
        ((squareform_pdist [[(0 : ℚ)], [1]]).getD i []).getD j 0 =
            ((squareform_pdist [[(0 : ℚ)], [1]]).getD j []).getD i 0 ∧
          0 ≤ ((squareform_pdist [[(0 : ℚ)], [1]]).getD i []).getD j 0) ∧
      (∀ i, i < [[(0 : ℚ)], [1]].length →
        ((squareform_pdist [[(0 : ℚ)], [1]]).getD i []).getD i 0 = 0)) :=
  ⟨by decide, by decide,
    squareform_pdist_sym_nonneg_zero_diag [[(0 : ℚ)], [1]] 1 (by decide) (by decide)⟩

/-! ### Self pairs (C4) -/

theorem pairwise_ne_getD (data : List (List ℚ)) (hd : data.Pairwise (· ≠ ·))
    {i j : ℕ} (hi : i < data.length) (hj : j < data.length) (hij : i ≠ j) :
    data.getD i [] ≠ data.getD j [] := by
  rw [List.pairwise_iff_getElem] at hd
  rw [List.getD_eq_getElem _ _ hi, List.getD_eq_getElem _ _ hj]
  rcases Nat.lt_or_ge i j with h | h
  · exact hd i j hi hj h
  · exact (hd j i hj hi (by omega)).symm

/-- With pairwise-distinct uniform-length rows the self distance 0 is the
unique strict minimum of its distance-matrix row, so the self pair gets rank
0. -/
theorem ranking_of_self_rank_zero (data : List (List ℚ)) {m : ℕ}
    (hm : ∀ row ∈ data, row.length = m) (hd : data.Pairwise (· ≠ ·))
    {i : ℕ} (hi : i < data.length) :
    ((ranking_of data).getD i []).getD i 0 = 0 := by
  rw [ranking_of_row data hi]
  have hrl : ((squareform_pdist data).getD i []).length = data.length :=
    squareform_pdist_row_length data hi
  apply double_argsort_self_rank _ (by rw [hrl]; exact hi)
  intro j hj hji
  rw [hrl] at hj
  have hdef : (default : ℚ) = 0 := rfl
  rw [hdef, squareform_pdist_entry data hi hi, squareform_pdist_entry data hi hj,
    sqeuclid_self]
  apply sqeuclid_pos
  · rw [List.getD_eq_getElem _ _ hi, List.getD_eq_getElem _ _ hj,
      hm _ (List.getElem_mem _), hm _ (List.getElem_mem _)]
  · exact pairwise_ne_getD data hd hi hj (Ne.symm hji)

theorem pair_counted_self (ks kt : ℕ) : pair_counted ks kt 0 0 = true := by
  simp [pair_counted, scale_eligible, rank_success]

theorem row_pair_count_pos (H L : List (List ℕ)) (ks kt i : ℕ)
    (hiH : i < (H.getD i []).length) (hiL : i < (L.getD i []).length)
    (hH0 : (H.getD i []).getD i 0 = 0) (hL0 : (L.getD i []).getD i 0 = 0) :
    1 ≤ row_pair_count H L ks kt i := by
  rw [row_pair_count]
  have hzip : i < ((H.getD i []).zip (L.getD i [])).length := by
    rw [List.length_zip]
    omega
  have hel : ((H.getD i []).zip (L.getD i [])).get ⟨i, hzip⟩ = (0, 0) := by
    rw [List.get_eq_getElem, List.getElem_zip,
      ← List.getD_eq_getElem _ 0 hiH, ← List.getD_eq_getElem _ 0 hiL, hH0, hL0]
  have hmem : ((0 : ℕ), (0 : ℕ)) ∈ ((H.getD i []).zip (L.getD i [])).filter
      (fun p => pair_counted ks kt p.1 p.2) := by
    rw [List.mem_filter]
    exact ⟨by rw [← hel]; exact List.get_mem _ _ _, pair_counted_self ks kt⟩
  have := List.length_pos_of_mem hmem
  omega

theorem col_pair_count_pos (H L : List (List ℕ)) (ks kt i : ℕ)
    (hiH : i < H.length) (hiL : i < L.length)
    (hH0 : (H.getD i []).getD i 0 = 0) (hL0 : (L.getD i []).getD i 0 = 0) :
    1 ≤ col_pair_count H L ks kt i := by
  rw [col_pair_count]
  have hzip : i < (H.zip L).length := by
    rw [List.length_zip]
    omega
  have hel : (H.zip L).get ⟨i, hzip⟩ = (H.getD i [], L.getD i []) := by
    rw [List.get_eq_getElem, List.getElem_zip,
      ← List.getD_eq_getElem _ [] hiH, ← List.getD_eq_getElem _ [] hiL]
  have hmem : (H.getD i [], L.getD i []) ∈ (H.zip L).filter
      (fun rows => pair_counted ks kt (rows.1.getD i 0) (rows.2.getD i 0)) := by
    rw [List.mem_filter]
    refine ⟨by rw [← hel]; exact List.get_mem _ _ _, ?_⟩
    show pair_counted ks kt ((H.getD i []).getD i 0) ((L.getD i []).getD i 0) = true
    rw [hH0, hL0]
    exact pair_counted_self ks kt
  have := List.length_pos_of_mem hmem
  omega

/-- C4 (implicit): with pairwise-distinct rows and `ks ≥ 1` the self pair
`(i,i)` has rank 0 in both rank matrices and is counted as an eligible
success both in row i and in column i, so every local-quality score is at
least `2/(2*ks*N) = 1/(ks*N) > 0`. -/
theorem local_quality_self_pair_score_positive (high_data low_data : List (List ℚ))
    (kt ks : ℕ) {mh ml : ℕ}
    (hlen : low_data.length = high_data.length)
    (hmh : ∀ row ∈ high_data, row.length = mh)
    (hml : ∀ row ∈ low_data, row.length = ml)
    (hdh : high_data.Pairwise (· ≠ ·))
    (hdl : low_data.Pairwise (· ≠ ·))
    (hks : 1 ≤ ks) (hn : 1 ≤ high_data.length) :
    (∀ i, i < high_data.length →
      ((ranking_of high_data).getD i []).getD i 0 = 0 ∧
      ((ranking_of low_data).getD i []).getD i 0 = 0) ∧
    ∃ v, local_quality high_data low_data kt ks = Except.ok v ∧
      ∀ i, i < high_data.length →
        1 / ((ks : ℚ) * (high_data.length : ℚ)) ≤ v.getD i 0 ∧ 0 < v.getD i 0 := by
  have hself : ∀ i, i < high_data.length →
      ((ranking_of high_data).getD i []).getD i 0 = 0 ∧
      ((ranking_of low_data).getD i []).getD i 0 = 0 := by
    intro i hi
    exact ⟨ranking_of_self_rank_zero high_data hmh hdh hi,
      ranking_of_self_rank_zero low_data hml hdl (by rw [hlen]; exact hi)⟩
  refine ⟨hself, ?_⟩
  obtain ⟨v, hv, hvlen, hvi⟩ := local_quality_ok_spec high_data low_data kt ks hlen hks hn
  refine ⟨v, hv, ?_⟩
  intro i hi
  have h1 : 1 ≤ row_pair_count (ranking_of high_data) (ranking_of low_data) ks kt i := by
    apply row_pair_count_pos
    · rw [ranking_of_row_length high_data hi]
      exact hi
    · rw [ranking_of_row_length low_data (by rw [hlen]; exact hi), hlen]
      exact hi
    · exact (hself i hi).1
    · exact (hself i hi).2
  have h2 : 1 ≤ col_pair_count (ranking_of high_data) (ranking_of low_data) ks kt i := by
    apply col_pair_count_pos
    · rw [ranking_of_length]
      exact hi
    · rw [ranking_of_length, hlen]
      exact hi
    · exact (hself i hi).1
    · exact (hself i hi).2
  rw [hvi i hi]
  have hks' : (0 : ℚ) < (ks : ℚ) := by exact_mod_cast hks
  have hn' : (0 : ℚ) < (high_data.length : ℚ) := by exact_mod_cast hn
  have hsum : (2 : ℚ) ≤
      (row_pair_count (ranking_of high_data) (ranking_of low_data) ks kt i : ℚ) +
        (col_pair_count (ranking_of high_data) (ranking_of low_data) ks kt i : ℚ) := by
    exact_mod_cast Nat.add_le_add h1 h2
  constructor
  · have hkey : 1 / (2 * (ks : ℚ) * (high_data.length : ℚ)) * 2
        = 1 / ((ks : ℚ) * (high_data.length : ℚ)) := by
      field_simp
      ring
    calc 1 / ((ks : ℚ) * (high_data.length : ℚ))
        = 1 / (2 * (ks : ℚ) * (high_data.length : ℚ)) * 2 := hkey.symm
      _ ≤ 1 / (2 * (ks : ℚ) * (high_data.length : ℚ)) *
            ((row_pair_count (ranking_of high_data) (ranking_of low_data) ks kt i : ℚ) +
             (col_pair_count (ranking_of high_data) (ranking_of low_data) ks kt i : ℚ)) := by
          apply mul_le_mul_of_nonneg_left hsum
          positivity
  · have : (0 : ℚ) <
        (row_pair_count (ranking_of high_data) (ranking_of low_data) ks kt i : ℚ) +
          (col_pair_count (ranking_of high_data) (ranking_of low_data) ks kt i : ℚ) := by
      linarith
    apply mul_pos _ this
    positivity

/-- Witness for C4 on a concrete pair of 2-point clouds with distinct rows. -/
theorem local_quality_self_pair_score_positive_witness :
    (∀ i, i < [[(0 : ℚ)], [1]].length →
      ((ranking_of [[(0 : ℚ)], [1]]).getD i []).getD i 0 = 0 ∧
      ((ranking_of [[(0 : ℚ)], [3]]).getD i []).getD i 0 = 0) ∧
    ∃ v, local_quality [[(0 : ℚ)], [1]] [[(0 : ℚ)], [3]] 0 1 = Except.ok v ∧
      ∀ i, i < [[(0 : ℚ)], [1]].length →
        1 / (((1 : ℕ) : ℚ) * (([[(0 : ℚ)], [1]].length : ℕ) : ℚ)) ≤ v.getD i 0 ∧
          0 < v.getD i 0 :=
  @local_quality_self_pair_score_positive [[(0 : ℚ)], [1]] [[(0 : ℚ)], [3]] 0 1 1 1
    rfl (by decide) (by decide) (by decide) (by decide) (by decide) (by decide)

/-! ### Scale-sweep aggregation (score_optimization.py, commented reference
lines 69–74) -/

/-- Model of `np.stack([trust, cont, lcmc], axis=0)`. -/
def np_stack3 (a b c : List ℚ) : List (List ℚ) := [a, b, c]

/-- Model of `np.mean(M, axis=0)`: column sums divided by the number of
rows. -/
def np_mean_axis0 (M : List (List ℚ)) : List ℚ :=
  (np_sum_axis0 M).map (fun s => s / (M.length : ℚ))

/-- Model of `aggregate_score = np.mean(np.stack([trust,cont,lcmc],axis=0),
axis=0)` (score_optimization.py line 69): the elementwise mean of the three
quality curves. -/
def aggregate_score (trust cont lcmc : List ℚ) : List ℚ :=
  np_mean_axis0 (np_stack3 trust cont lcmc)

/-- Model of `np.trapz(y, x)`: trapezoidal integration of y against x. -/
def np_trapz (y x : List ℚ) : ℚ :=
  (List.zipWith (fun p q => (q.2 - p.2) * (p.1 + q.1) / 2)
    (y.zip x) ((y.zip x).tail)).sum

/-- Model of `sklearn.metrics.auc(x, y)`: requires x and y of one length, at
least 2 points, and a monotone x (ascending gives `np.trapz(y, x)`,
descending its negation, anything else a `ValueError`). -/
def sk_auc (x y : List ℚ) : Except PyError ℚ :=
  if x.length ≠ y.length then .error .valueError
  else if x.length < 2 then .error .valueError
  else if (List.zipWith (fun a b => b - a) x x.tail).all (fun d => decide (0 ≤ d)) then
    .ok (np_trapz y x)
  else if (List.zipWith (fun a b => b - a) x x.tail).all (fun d => decide (d ≤ 0)) then
    .ok (-np_trapz y x)
  else .error .valueError

/-- Model of the unsupervised-score reduction of score_optimization.py lines
69–74: build the aggregate curve, then reduce the four curves with
`metrics.auc(x, ·)` against `x = range(20)`. -/
def unsupervised_aucs (trust cont lcmc : List ℚ) : Except PyError (ℚ × ℚ × ℚ × ℚ) := do
  let aggregate := aggregate_score trust cont lcmc
  let x := (List.range 20).map (fun (i : ℕ) => (i : ℚ))
  let trust_AUC ← sk_auc x trust
  let cont_AUC ← sk_auc x cont
  let lcmc_AUC ← sk_auc x lcmc
  let aggregate_AUC ← sk_auc x aggregate
  return (trust_AUC, cont_AUC, lcmc_AUC, aggregate_AUC)

/-- Specification-side trapezoidal area over the K-index axis (unit
spacing): the sum of `(y_i + y_{i+1})/2`. -/
def index_axis_auc (y : List ℚ) : ℚ :=
  ((List.range (y.length - 1)).map (fun i => (y.getD i 0 + y.getD (i + 1) 0) / 2)).sum

/-- Trapezoidal integration against `x = range n` is exactly the unit-spaced
index-axis trapezoid sum. -/
theorem np_trapz_range (y : List ℚ) (n : ℕ) (hy : y.length = n) :
    np_trapz y ((List.range n).map (fun (i : ℕ) => (i : ℚ))) = index_axis_auc y := by
  rw [np_trapz, index_axis_auc]
  congr 1
  have hxlen : ((List.range n).map (fun (i : ℕ) => (i : ℚ))).length = n := by
    rw [List.length_map, List.length_range]
  have hzlen : (y.zip ((List.range n).map (fun (i : ℕ) => (i : ℚ)))).length = n := by
    rw [List.length_zip, hy, hxlen, min_self]
  apply List.ext_getElem
  · rw [List.length_zipWith, List.length_tail, hzlen, List.length_map,
      List.length_range, hy]
    omega
  · intro i h1 h2
    have hi : i < n - 1 := by
      rwa [List.length_map, List.length_range, hy] at h2
    rw [List.getElem_zipWith, List.getElem_map, List.getElem_range,
      List.getElem_tail, List.getElem_zip, List.getElem_zip,
      List.getElem_map, List.getElem_map, List.getElem_range, List.getElem_range]
    rw [← List.getD_eq_getElem y 0 (by omega), ← List.getD_eq_getElem y 0 (by omega)]
    push_cast
    ring

theorem sk_auc_range (y : List ℚ) (n : ℕ) (h2 : 2 ≤ n) (hy : y.length = n) :
    sk_auc ((List.range n).map (fun (i : ℕ) => (i : ℚ))) y
      = Except.ok (index_axis_auc y) := by
  have hxlen : ((List.range n).map (fun (i : ℕ) => (i : ℚ))).length = n := by
    rw [List.length_map, List.length_range]
  rw [sk_auc, if_neg (by rw [hxlen, hy]; exact not_ne_iff.mpr rfl),
    if_neg (by rw [hxlen]; omega)]
  rw [if_pos ?asc]
  · rw [np_trapz_range y n hy]
  case asc =>
    simp only [List.all_eq_true, decide_eq_true_eq]
    intro d hd
    rw [List.mem_iff_getElem] at hd
    obtain ⟨i, hilt, rfl⟩ := hd
    rw [List.getElem_zipWith, List.getElem_tail, List.getElem_map, List.getElem_map,
      List.getElem_range, List.getElem_range]
    push_cast
    linarith

theorem aggregate_score_length (t c l : List ℚ) :
    (aggregate_score t c l).length = t.length := by
  rw [aggregate_score, np_mean_axis0, np_stack3, np_sum_axis0, List.length_map,
    List.length_map, List.length_range, List.headD_cons]

theorem aggregate_score_getD (trust cont lcmc : List ℚ)
    {j : ℕ} (hj : j < trust.length) :
    (aggregate_score trust cont lcmc).getD j 0
      = (trust.getD j 0 + cont.getD j 0 + lcmc.getD j 0) / 3 := by
  rw [aggregate_score, np_mean_axis0, np_stack3, np_sum_axis0]
  simp only [List.headD_cons]
  have hb : j < ((List.range trust.length).map (fun j =>
      (([trust, cont, lcmc].map (fun row => row.getD j 0)).sum))).length := by
    rw [List.length_map, List.length_range]
    exact hj
  rw [List.getD_eq_getElem _ _ (by rw [List.length_map]; exact hb), List.getElem_map,
    List.getElem_map, List.getElem_range]
  simp only [List.map_cons, List.map_nil, List.sum_cons, List.sum_nil,
    List.length_cons, List.length_nil]
  norm_num
  ring

/-- C9: the scale sweep's fourth curve is the elementwise mean of the
trustworthiness, continuity and LCMC curves, and each of the four 20-point
curves is reduced to a scalar by trapezoidal AUC taken against
`x = range(20)` — the K-index axis 0..19 with unit spacing, not the raw K
values. -/
theorem unsupervised_aucs_spec (trust cont lcmc : List ℚ)
    (ht : trust.length = 20) (hc : cont.length = 20) (hl : lcmc.length = 20) :
    (∀ j, j < 20 → (aggregate_score trust cont lcmc).getD j 0
        = (trust.getD j 0 + cont.getD j 0 + lcmc.getD j 0) / 3) ∧
    unsupervised_aucs trust cont lcmc = Except.ok
      (index_axis_auc trust, index_axis_auc cont, index_axis_auc lcmc,
        index_axis_auc (aggregate_score trust cont lcmc)) := by
  constructor
  · intro j hj
    exact aggregate_score_getD trust cont lcmc (by omega)
  · unfold unsupervised_aucs
    dsimp only
    rw [sk_auc_range trust 20 (by omega) ht,
      sk_auc_range cont 20 (by omega) hc,
      sk_auc_range lcmc 20 (by omega) hl,
      sk_auc_range (aggregate_score trust cont lcmc) 20 (by omega)
        (by rw [aggregate_score_length, ht])]
    rfl

/-- Witness for C9 on three concrete 20-point curves. -/
theorem unsupervised_aucs_spec_witness :
    (∀ j, j < 20 →
      (aggregate_score (List.replicate 20 (0 : ℚ)) (List.replicate 20 1)
          (List.replicate 20 2)).getD j 0
        = ((List.replicate 20 (0 : ℚ)).getD j 0 + (List.replicate 20 (1 : ℚ)).getD j 0 +
            (List.replicate 20 (2 : ℚ)).getD j 0) / 3) ∧
    unsupervised_aucs (List.replicate 20 (0 : ℚ)) (List.replicate 20 1)
        (List.replicate 20 2) = Except.ok
      (index_axis_auc (List.replicate 20 (0 : ℚ)),
        index_axis_auc (List.replicate 20 (1 : ℚ)),
        index_axis_auc (List.replicate 20 (2 : ℚ)),
        index_axis_auc (aggregate_score (List.replicate 20 (0 : ℚ))
          (List.replicate 20 1) (List.replicate 20 2))) :=
  unsupervised_aucs_spec (List.replicate 20 (0 : ℚ)) (List.replicate 20 1)
    (List.replicate 20 2) (by decide) (by decide) (by decide)

/-! ### Hyperparameter-grid aggregation (heatmap_optimization.py) -/

/-- The swept alpha values (heatmap_optimization.py line 31); alpha selects
the grid column. -/
def alpha_list : List ℤ := [0, 5, 20, 100, 500, 1000]

/-- The swept beta values (line 32); beta selects the grid row. -/
def beta_list : List ℤ := [0, 1, 5, 20, 100, 500]

/-- One run folder's data: the two hyperparameters parsed from the folder
name and the four AUC scalars read from its `unsupervised_score.csv`. -/
structure RunRecord where
  alpha : ℤ
  beta : ℤ
  trust_AUC : ℚ
  cont_AUC : ℚ
  lcmc_AUC : ℚ
  aggregate_AUC : ℚ

/-- `np.zeros((6,6))` (heatmap_optimization.py lines 25–28). -/
def np_zeros_6x6 : List (List ℚ) := List.replicate 6 (List.replicate 6 0)

/-- Model of the fancy-indexed store `hm[row, col] = v` with
`row = np.where(beta_list == beta)[0]` and
`col = np.where(alpha_list == alpha)[0]` (lines 40–53): when either index
array is empty (hyperparameter value not in the grid) numpy writes
nothing. -/
def hm_store (hm : List (List ℚ)) (beta alpha : ℤ) (v : ℚ) : List (List ℚ) :=
  match beta_list.findIdx? (fun x => x == beta),
      alpha_list.findIdx? (fun x => x == alpha) with
  | some row, some col => hm.set row ((hm.getD row []).set col v)
  | _, _ => hm

/-- Model of the aggregation loop (lines 35–53) for one of the four
heatmaps: start from `np.zeros((6,6))` and store each run's scalar at its
(beta-row, alpha-column) cell.  A hyperparameter pair with no run folder
simply contributes no store. -/
def build_heatmap (score : RunRecord → ℚ) (runs : List RunRecord) : List (List ℚ) :=
  runs.foldl (fun hm rr => hm_store hm rr.beta rr.alpha (score rr)) np_zeros_6x6

/-- The four heatmaps of heatmap_optimization.py lines 50–53. -/
def trust_hm (runs : List RunRecord) : List (List ℚ) :=
  build_heatmap (fun rr => rr.trust_AUC) runs

def cont_hm (runs : List RunRecord) : List (List ℚ) :=
  build_heatmap (fun rr => rr.cont_AUC) runs

def lcmc_hm (runs : List RunRecord) : List (List ℚ) :=
  build_heatmap (fun rr => rr.lcmc_AUC) runs

def aggregate_hm (runs : List RunRecord) : List (List ℚ) :=
  build_heatmap (fun rr => rr.aggregate_AUC) runs

/-- Cell read of a grid. -/
def grid_cell (hm : List (List ℚ)) (r c : ℕ) : ℚ := (hm.getD r []).getD c 0

/-- A run populates cell (r, c) when its beta matches row r and its alpha
matches column c. -/
def run_hits (rr : RunRecord) (r c : ℕ) : Prop :=
  beta_list.findIdx? (fun x => x == rr.beta) = some r ∧
    alpha_list.findIdx? (fun x => x == rr.alpha) = some c

theorem getD_of_le {α : Type} (l : List α) (d : α) {n : ℕ} (h : l.length ≤ n) :
    l.getD n d = d := by
  rw [List.getD_eq_getElem?_getD, List.getElem?_eq_none h]
  rfl

theorem getD_set_of_ne {α : Type} (l : List α) (i j : ℕ) (a d : α) (h : i ≠ j) :
    (l.set i a).getD j d = l.getD j d := by
  rcases Nat.lt_or_ge j l.length with hj | hj
  · rw [List.getD_eq_getElem _ _ (by rwa [List.length_set]),
      List.getD_eq_getElem _ _ hj, List.getElem_set_ne h]
  · rw [getD_of_le _ _ (by rwa [List.length_set]), getD_of_le _ _ hj]

theorem grid_cell_store_hit (hm : List (List ℚ)) (b a : ℤ) (v : ℚ) {r c : ℕ}
    (hfb : beta_list.findIdx? (fun x => x == b) = some r)
    (hfa : alpha_list.findIdx? (fun x => x == a) = some c)
    (hr : r < hm.length) (hc : c < (hm.getD r []).length) :
    grid_cell (hm_store hm b a v) r c = v := by
  unfold hm_store
  rw [hfb, hfa]
  dsimp only
  have h1 : (hm.set r ((hm.getD r []).set c v)).getD r [] = (hm.getD r []).set c v := by
    rw [List.getD_eq_getElem _ _ (by rw [List.length_set]; exact hr),
      List.getElem_set_self]
  rw [grid_cell, h1,
    List.getD_eq_getElem _ _ (by rw [List.length_set]; exact hc),
    List.getElem_set_self]

theorem grid_cell_store_miss (hm : List (List ℚ)) (b a : ℤ) (v : ℚ) {r c : ℕ}
    (h : ¬(beta_list.findIdx? (fun x => x == b) = some r ∧
           alpha_list.findIdx? (fun x => x == a) = some c)) :
    grid_cell (hm_store hm b a v) r c = grid_cell hm r c := by
  unfold hm_store
  rcases hfb : beta_list.findIdx? (fun x => x == b) with _ | row
  · rfl
  rcases hfa : alpha_list.findIdx? (fun x => x == a) with _ | col
  · rfl
  dsimp only
  by_cases hrr : row = r
  · subst hrr
    have hcc : col ≠ c := by
      intro hcc
      exact h ⟨hfb, by rw [hfa, hcc]⟩
    rcases Nat.lt_or_ge row hm.length with hlt | hge
    · have h1 : (hm.set row ((hm.getD row []).set col v)).getD row []
          = (hm.getD row []).set col v := by
        rw [List.getD_eq_getElem _ _ (by rw [List.length_set]; exact hlt),
          List.getElem_set_self]
      rw [grid_cell, grid_cell, h1]
      exact getD_set_of_ne _ _ _ _ _ hcc
    · have h1 : (hm.set row ((hm.getD row []).set col v)).getD row [] = ([] : List ℚ) := by
        rw [getD_of_le _ _ (by rwa [List.length_set])]
      have h2 : hm.getD row [] = ([] : List ℚ) := getD_of_le _ _ hge
      rw [grid_cell, grid_cell, h1, h2]
  · rw [grid_cell, grid_cell]
    congr 1
    exact getD_set_of_ne _ _ _ _ _ hrr

theorem hm_store_length (hm : List (List ℚ)) (b a : ℤ) (v : ℚ) :
    (hm_store hm b a v).length = hm.length := by
  unfold hm_store
  rcases beta_list.findIdx? (fun x => x == b) with _ | row
  · rfl
  rcases alpha_list.findIdx? (fun x => x == a) with _ | col
  · rfl
  exact List.length_set hm _ _

theorem hm_store_rows (hm : List (List ℚ)) (b a : ℤ) (v : ℚ)
    (hlen : hm.length = 6) (h : ∀ row ∈ hm, row.length = 6) :
    ∀ row ∈ hm_store hm b a v, row.length = 6 := by
  unfold hm_store
  rcases hfb : beta_list.findIdx? (fun x => x == b) with _ | row
  · exact h
  rcases hfa : alpha_list.findIdx? (fun x => x == a) with _ | col
  · exact h
  dsimp only
  intro rrow hrrow
  rcases List.mem_or_eq_of_mem_set hrrow with hmem | heq
  · exact h _ hmem
  · subst heq
    rw [List.length_set]
    have hrowlt : row < beta_list.length :=
      (List.findIdx?_eq_some_iff_findIdx_eq.mp hfb).1
    have hrow6 : row < hm.length := by
      rw [hlen]
      exact hrowlt
    rw [List.getD_eq_getElem _ _ hrow6]
    exact h _ (List.getElem_mem _)

theorem foldl_store_cell_eq (score : RunRecord → ℚ) {r c : ℕ} :
    ∀ (runs : List RunRecord) (hm : List (List ℚ)),
      (∀ rr ∈ runs, ¬ run_hits rr r c) →
      grid_cell
        (runs.foldl (fun h2 rr => hm_store h2 rr.beta rr.alpha (score rr)) hm) r c
        = grid_cell hm r c
  | [], hm, _ => rfl
  | rr :: runs, hm, hmiss => by
    rw [List.foldl_cons,
      foldl_store_cell_eq score runs _ (fun x hx => hmiss x (List.mem_cons_of_mem _ hx))]
    exact grid_cell_store_miss _ _ _ _ (hmiss rr (List.mem_cons_self _ _))

theorem foldl_store_cell_hit (score : RunRecord → ℚ) {r c : ℕ} :
    ∀ (runs : List RunRecord) (hm : List (List ℚ)),
      hm.length = 6 → (∀ row ∈ hm, row.length = 6) →
      ∀ rr ∈ runs, run_hits rr r c →
      (∀ rr2 ∈ runs, run_hits rr2 r c → rr2 = rr) →
      grid_cell
        (runs.foldl (fun h2 x => hm_store h2 x.beta x.alpha (score x)) hm) r c
        = score rr
  | [], _, _, _, _, hmem, _, _ => absurd hmem (List.not_mem_nil _)
  | x :: runs, hm, hlen, hrows, rr, hmem, hhit, huniq => by
    rw [List.foldl_cons]
    have hlen2 : (hm_store hm x.beta x.alpha (score x)).length = 6 := by
      rw [hm_store_length, hlen]
    have hrows2 : ∀ row ∈ hm_store hm x.beta x.alpha (score x), row.length = 6 :=
      hm_store_rows hm _ _ _ hlen hrows
    by_cases hlater : ∃ rr2 ∈ runs, run_hits rr2 r c
    · obtain ⟨rr2, hmem2, hhit2⟩ := hlater
      have he : rr2 = rr := huniq rr2 (List.mem_cons_of_mem _ hmem2) hhit2
      subst he
      exact foldl_store_cell_hit score runs _ hlen2 hrows2 rr2 hmem2 hhit2
        (fun y hy hyh => huniq y (List.mem_cons_of_mem _ hy) hyh)
    · push_neg at hlater
      have hxr : x = rr := by
        rcases List.mem_cons.mp hmem with he | hmem'
        · rcases List.mem_cons.mp hmem with _ | hmem2
          · exact he.symm ▸ rfl
          · exact he.symm ▸ rfl
        · exact absurd hhit (hlater rr hmem')
      subst hxr
      have hxhit : run_hits x r c := hhit
      rw [foldl_store_cell_eq score runs _ hlater]
      have hr6 : r < 6 := by
        have := (List.findIdx?_eq_some_iff_findIdx_eq.mp hxhit.1).1
        simpa [beta_list] using this
      have hc6 : c < 6 := by
        have := (List.findIdx?_eq_some_iff_findIdx_eq.mp hxhit.2).1
        simpa [alpha_list] using this
      apply grid_cell_store_hit hm _ _ _ hxhit.1 hxhit.2 (by omega)
      have : (hm.getD r []).length = 6 := by
        rw [List.getD_eq_getElem _ _ (by omega)]
        exact hrows _ (List.getElem_mem _)
      omega

/-- C10: grid aggregation tolerates missing or incomplete runs — every grid
cell starts at the sentinel 0, a hyperparameter pair with no run folder
leaves its cell at 0, a pair with a (unique) run folder still receives that
run's score, and the aggregation is a total function that never fails as a
whole. -/
theorem heatmap_missing_runs_tolerated (score : RunRecord → ℚ)
    (runs : List RunRecord) {r c : ℕ} (hr : r < 6) (hc : c < 6) :
    grid_cell (build_heatmap score []) r c = 0 ∧
    ((∀ rr ∈ runs, ¬ run_hits rr r c) →
      grid_cell (build_heatmap score runs) r c = 0) ∧
    (∀ rr ∈ runs, run_hits rr r c →
      (∀ rr2 ∈ runs, run_hits rr2 r c → rr2 = rr) →
      grid_cell (build_heatmap score runs) r c = score rr) := by
  have hzero : grid_cell np_zeros_6x6 r c = 0 := by
    have hrow : (List.replicate 6 (List.replicate 6 (0 : ℚ))).getD r []
        = List.replicate 6 0 := by
      rw [List.getD_eq_getElem _ _ (by rw [List.length_replicate]; exact hr),
        List.getElem_replicate]
    rw [np_zeros_6x6, grid_cell, hrow,
      List.getD_eq_getElem _ _ (by rw [List.length_replicate]; exact hc),
      List.getElem_replicate]
  refine ⟨hzero, ?_, ?_⟩
  · intro hmiss
    rw [build_heatmap, foldl_store_cell_eq score runs _ hmiss, hzero]
  · intro rr hmem hhit huniq
    rw [build_heatmap]
    refine foldl_store_cell_hit score runs _ ?_ ?_ rr hmem hhit huniq
    · rw [np_zeros_6x6, List.length_replicate]
    · intro row hrow
      rw [np_zeros_6x6] at hrow
      rw [List.eq_of_mem_replicate hrow, List.length_replicate]

/-- Witness for C10: a single run at (alpha, beta) = (5, 1), populating grid
cell (1, 1) of the trustworthiness heatmap while every other cell keeps the
zero sentinel. -/
theorem heatmap_missing_runs_tolerated_witness :
    grid_cell (build_heatmap (fun rr => rr.trust_AUC) []) 1 1 = 0 ∧
    ((∀ rr ∈ [RunRecord.mk 5 1 10 11 12 13], ¬ run_hits rr 1 1) →
      grid_cell (build_heatmap (fun rr => rr.trust_AUC)
        [RunRecord.mk 5 1 10 11 12 13]) 1 1 = 0) ∧
    (∀ rr ∈ [RunRecord.mk 5 1 10 11 12 13], run_hits rr 1 1 →
      (∀ rr2 ∈ [RunRecord.mk 5 1 10 11 12 13], run_hits rr2 1 1 → rr2 = rr) →
      grid_cell (build_heatmap (fun rr => rr.trust_AUC)
        [RunRecord.mk 5 1 10 11 12 13]) 1 1 = rr.trust_AUC) :=
  heatmap_missing_runs_tolerated (fun rr => rr.trust_AUC)
    [RunRecord.mk 5 1 10 11 12 13] (by decide) (by decide)
